import Mathlib

/-!
Shallow embedding of `axiomhq/go-topk` (`topk.go`) — a Filtered Space-Saving
top-K sketch — together with theorems settling the specification claims.

Modelling conventions:
* Go `int` is modelled as `Int`; Go `uint64`/`uint32` arithmetic is modelled on
  `Nat` with explicit `% 2^32` where the code truncates.
* The external 64-bit hash function (`metro.Hash64Str`, an opaque collaborator
  per the spec) is a parameter `hash : String → Nat`.
* Go slices are `List`s; out-of-range reads use `getD` with the zero value
  (Go would panic there; all claims only touch in-range indices).
* The Go `map[string]int` is an association list kept in the same order as the
  code's updates; lookup/update/delete mirror map semantics for unique keys.
* Loops (`container/heap`'s `up`/`down`) are structural recursions on an
  explicit fuel that provably dominates the loop's iteration count, so that
  every definition evaluates by kernel reduction.
-/

namespace Topk

/-- Element is a TopK item (Key, Count, Error), from `type Element` in topk.go. -/
structure Element where
  Key : String
  Count : Int
  Error : Int
deriving DecidableEq, Inhabited

/-- One partition: the companion index map `m` and the heap array `elts`,
from `type keys` in topk.go. -/
structure keys where
  m : List (String × Int)
  elts : List Element
deriving DecidableEq, Inhabited

/-- Association-list lookup, modelling `idx, ok := tk.m[x]`. -/
def lookupA : List (String × Int) → String → Option Int
  | [], _ => none
  | (k, v) :: rest, x => if k = x then some v else lookupA rest x

/-- Association-list update-or-add, modelling `tk.m[x] = v`. -/
def updateA : List (String × Int) → String → Int → List (String × Int)
  | [], x, v => [(x, v)]
  | (k, w) :: rest, x, v =>
    if k = x then (k, v) :: rest else (k, w) :: updateA rest x v

/-- Association-list removal, modelling `delete(tk.m, x)`. -/
def eraseA : List (String × Int) → String → List (String × Int)
  | [], _ => []
  | (k, w) :: rest, x => if k = x then rest else (k, w) :: eraseA rest x

/-- The heap order `keys.Less`: `(Count ascending, Error descending)`, from
`func (tk *keys) Less` in topk.go. -/
def keys.Less (tk : keys) (i j : Nat) : Bool :=
  let a := tk.elts.getD i default
  let b := tk.elts.getD j default
  decide (a.Count < b.Count) || (decide (a.Count = b.Count) && decide (b.Error < a.Error))

/-- The heap swap `keys.Swap`: swaps two slots of `elts` and rewrites the map
entries of the two keys now at positions `i` and `j`, from `func (tk *keys) Swap`. -/
def keys.Swap (tk : keys) (i j : Nat) : keys :=
  let a := tk.elts.getD i default
  let b := tk.elts.getD j default
  let elts1 := (tk.elts.set i b).set j a
  let m1 := updateA (updateA tk.m (elts1.getD i default).Key (Int.ofNat i))
      (elts1.getD j default).Key (Int.ofNat j)
  { m := m1, elts := elts1 }

/-- The sift-up loop of `container/heap`'s `up`, with fuel (the loop index `j`
strictly decreases, so `j + 1` units of fuel always suffice). -/
def heapUpFuel : Nat → keys → Nat → keys
  | 0, tk, _ => tk
  | fuel + 1, tk, j =>
    let i := (j - 1) / 2
    if i == j || !(tk.Less j i) then tk
    else heapUpFuel fuel (tk.Swap i j) i

/-- `container/heap`'s `up`. -/
def heapUp (tk : keys) (j : Nat) : keys := heapUpFuel (j + 1) tk j

/-- The sift-down loop of `container/heap`'s `down`, with fuel (the loop index
`i` strictly increases and stays below `n`, so `n` units of fuel suffice).
The loop picks the smaller child `j` (`j1 = 2i+1`, or `j1+1` when it exists
and is `Less`), stops unless `Less j i`, else swaps and continues from `j`;
the two child cases are written out so the branch structure is explicit.
Returns the final index alongside the state; `down` reports `i > i0`. -/
def heapDownFuel : Nat → keys → Nat → Nat → keys × Nat
  | 0, tk, i, _ => (tk, i)
  | fuel + 1, tk, i, n =>
    if 2 * i + 1 ≥ n then (tk, i)
    else
      if 2 * i + 2 < n && tk.Less (2 * i + 2) (2 * i + 1) then
        if !(tk.Less (2 * i + 2) i) then (tk, i)
        else heapDownFuel fuel (tk.Swap i (2 * i + 2)) (2 * i + 2) n
      else
        if !(tk.Less (2 * i + 1) i) then (tk, i)
        else heapDownFuel fuel (tk.Swap i (2 * i + 1)) (2 * i + 1) n

/-- `container/heap`'s `down`, returning whether the element moved. -/
def heapDown (tk : keys) (i0 n : Nat) : keys × Bool :=
  ((heapDownFuel n tk i0 n).1, decide (i0 < (heapDownFuel n tk i0 n).2))

/-- `container/heap.Push`: `tk.Push(e)` (record the slot in the map, append)
followed by `up` from the last index. -/
def heapPush (tk : keys) (e : Element) : keys :=
  let tk1 : keys := { m := updateA tk.m e.Key (Int.ofNat tk.elts.length),
                      elts := tk.elts ++ [e] }
  heapUp tk1 (tk1.elts.length - 1)

/-- `container/heap.Fix`: `if !down(h, i, h.Len()) { up(h, i) }`. -/
def heapFix (tk : keys) (i : Nat) : keys :=
  if (heapDown tk i tk.elts.length).2 then (heapDown tk i tk.elts.length).1
  else heapUp (heapDown tk i tk.elts.length).1 i

/-- The fixed partition count, `const nPartitions = 6`. -/
def nPartitions : Nat := 6

/-- Stream is the sketch: target count `n`, the 6 partitions, and the shared
error table `alphas`, from `type Stream` in topk.go. -/
structure Stream where
  n : Nat
  p : List keys
  alphas : List Int
deriving DecidableEq

/-- `func New(n int) *Stream`: 6 empty partitions and an all-zero error table
of size `n * 6`. -/
def New (n : Nat) : Stream :=
  { n := n
    p := List.replicate nPartitions { m := [], elts := [] }
    alphas := List.replicate (n * nPartitions) 0 }

/-- `func reduce(x uint64, n int) uint32`: the code computes
`uint32(uint64(uint32(x)) * uint64(n) >> 32)` — note `uint32(x)` keeps the LOW
32 bits of the 64-bit hash. -/
def reduce (x : Nat) (n : Nat) : Nat :=
  ((x % 4294967296) * n) / 4294967296

/-- Add `count` to an element's `Count` (`s.p[i].elts[idx].Count += count`). -/
def incCount (e : Element) (count : Int) : Element :=
  { e with Count := e.Count + count }

/-- `func (s *Stream) Insert(x string, count int) Element`, translated
branch-for-branch from topk.go lines 209-260.  Returns the updated sketch and
the returned estimate element. -/
def Stream.Insert (hash : String → Nat) (s : Stream) (x : String) (count : Int) :
    Stream × Element :=
  let strHash := hash x
  let xhash := reduce strHash s.alphas.length
  let i := strHash % s.p.length
  let tk := s.p.getD i default
  match lookupA tk.m x with
  | some idx =>
    -- tracked: bump the count, read the element, then heap.Fix
    let idxn := idx.toNat
    let elts1 := tk.elts.set idxn (incCount (tk.elts.getD idxn default) count)
    let e := elts1.getD idxn default
    let tk1 := heapFix { tk with elts := elts1 } idxn
    ({ s with p := s.p.set i tk1 }, e)
  | none =>
    if tk.elts.length < s.n then
      -- free space: admit with zero error
      let e : Element := { Key := x, Count := count, Error := 0 }
      ({ s with p := s.p.set i (heapPush tk e) }, e)
    else if s.alphas.getD xhash 0 + count < (tk.elts.getD 0 default).Count then
      -- filter branch: raise the bucket floor only
      let a := s.alphas.getD xhash 0
      let e : Element := { Key := x, Error := a, Count := a + count }
      ({ s with alphas := s.alphas.set xhash (a + count) }, e)
    else
      -- evict branch: record the evicted minimum's floor, replace the root
      let minElement := tk.elts.getD 0 default
      let mkhash := reduce (hash minElement.Key) s.alphas.length
      let alphas1 := s.alphas.set mkhash minElement.Count
      let a := alphas1.getD xhash 0
      let e : Element := { Key := x, Error := a, Count := a + count }
      let tk1 : keys := { m := updateA (eraseA tk.m minElement.Key) x 0,
                          elts := tk.elts.set 0 e }
      ({ s with p := s.p.set i (heapFix tk1 0), alphas := alphas1 }, e)

/-- `func (s *Stream) Estimate(x string) Element`, from topk.go lines 361-379. -/
def Stream.Estimate (hash : String → Nat) (s : Stream) (x : String) : Element :=
  let strHash := hash x
  let xhash := reduce strHash s.alphas.length
  let i := strHash % s.p.length
  let tk := s.p.getD i default
  match lookupA tk.m x with
  | some idx => tk.elts.getD idx.toNat default
  | none =>
    let count := s.alphas.getD xhash 0
    { Key := x, Error := count, Count := count }

/-- Fold a finite stream of `Insert` calls into a sketch. -/
def insertSeq (hash : String → Nat) (s : Stream) : List (String × Int) → Stream
  | [] => s
  | (x, c) :: rest => insertSeq hash (Stream.Insert hash s x c).1 rest

/-- Modelled from the spec: `exact_count(x)` is the sum of the counts inserted
for `x` over the stream. -/
def exactCount (stream : List (String × Int)) (x : String) : Int :=
  (stream.filter (fun p => p.1 = x)).foldl (fun a p => a + p.2) 0

/-- The comparison of `elementsByCountDescending.Less` in topk.go:
`Count` descending, ties broken by `Key` ascending. -/
def eltsLess (a b : Element) : Prop :=
  b.Count < a.Count ∨ (a.Count = b.Count ∧ a.Key < b.Key)

instance : DecidableRel eltsLess := fun a b => by unfold eltsLess; infer_instance

/-- The non-strict order induced by `eltsLess`; Go's `sort.Sort` guarantees the
result is pairwise ordered by exactly this relation. -/
def sortLE (a b : Element) : Prop := ¬ eltsLess b a

instance : DecidableRel sortLE := fun a b => by unfold sortLE; infer_instance

/-- `sort.Sort(elementsByCountDescending(elts))`.  Go's sort is an unspecified
(unstable) permutation sorted under `Less`; we model it with insertion sort,
which produces a sorted permutation as well. -/
def sortDesc (l : List Element) : List Element := List.insertionSort sortLE l

/-- Deduplicate, keeping first occurrences: models collecting `eKeys`, the set
of keys tracked in either partition (Go iterates a set map). -/
def dedupAcc (seen : List String) : List String → List String
  | [] => []
  | k :: rest =>
    if seen.contains k then dedupAcc seen rest
    else k :: dedupAcc (k :: seen) rest

/-- Key set of the two partitions being merged, in first-occurrence order. -/
def dedupKeys (l : List String) : List String := dedupAcc [] l

/-- The combined element list for partition `i` of a merge, from the
`for k := range eKeys` loop of `Stream.Merge` (topk.go lines 280-312).  Note
both fallback floors `min1` and `min2` read `other.alphas` (the asymmetry the
spec records as an open question). -/
def mergedElts (hash : String → Nat) (s other : Stream) (i : Nat) : List Element :=
  let tkS := s.p.getD i default
  let tkO := other.p.getD i default
  let eKeys := dedupKeys (tkS.elts.map Element.Key ++ tkO.elts.map Element.Key)
  eKeys.filterMap (fun k =>
    let xhash := reduce (hash k) s.alphas.length
    let min1 := other.alphas.getD xhash 0
    let min2 := other.alphas.getD xhash 0
    match lookupA tkS.m k, lookupA tkO.m k with
    | some idx1, some idx2 =>
      let e1 := tkS.elts.getD idx1.toNat default
      let e2 := tkO.elts.getD idx2.toNat default
      some { Key := k, Count := e1.Count + e2.Count, Error := e1.Error + e2.Error }
    | some idx1, none =>
      let e1 := tkS.elts.getD idx1.toNat default
      some { Key := k, Count := e1.Count + min2, Error := e1.Error + min2 }
    | none, some idx2 =>
      let e2 := tkO.elts.getD idx2.toNat default
      some { Key := k, Count := e2.Count + min1, Error := e2.Error + min1 }
    | none, none => none)

/-- Sort, trim to `s.n`, and rebuild a fresh heap from the survivors
(topk.go lines 314-333). -/
def mergePartition (hash : String → Nat) (s other : Stream) (i : Nat) : keys :=
  let elts := sortDesc (mergedElts hash s other i)
  let elts1 := if elts.length > s.n then elts.take s.n else elts
  elts1.foldl heapPush { m := [], elts := [] }

/-- `for i, v := range other.alphas { s.alphas[i] += v }` (topk.go lines
336-338; Go panics if `other.alphas` is longer than `s.alphas`). -/
def mergeAlphas (a b : List Int) : List Int :=
  (List.zipWith (fun x y => x + y) a b) ++ a.drop b.length

/-- One iteration of the `for i := range s.p` loop of `Stream.Merge`: the body
rebuilds partition `i` AND adds `other.alphas` into `s.alphas` (the alphas
addition is inside the partition loop in the source). -/
def mergeStep (hash : String → Nat) (other : Stream) (acc : Stream) (i : Nat) : Stream :=
  let tk := mergePartition hash acc other i
  { acc with alphas := mergeAlphas acc.alphas other.alphas, p := acc.p.set i tk }

/-- The error returned by `Stream.Merge` on a size mismatch. -/
inductive MergeError where
  | sizeMismatch (expected got : Nat)
deriving DecidableEq

/-- `func (s *Stream) Merge(other *Stream) error` (topk.go lines 263-344).
The checked size precondition comes first; the functional model returns the
new `self` on success and produces no state on error (the Go code returns
before any mutation), and never writes to `other`. -/
def Stream.Merge (hash : String → Nat) (s other : Stream) : Except MergeError Stream :=
  if s.n ≠ other.n then .error (.sizeMismatch s.n other.n)
  else .ok ((List.range s.p.length).foldl (mergeStep hash other) s)

/-- `func (s *Stream) Keys() []Element` (topk.go lines 347-358): concatenate
all partitions, sort descending, trim to `n`.  Pure read. -/
def Stream.Keys (s : Stream) : List Element :=
  let elts := s.p.foldl (fun acc tk => acc ++ tk.elts) []
  let elts1 := sortDesc elts
  if elts1.length > s.n then elts1.take s.n else elts1

/-- A msgpack token.  The codec is modelled at the granularity of the msgp
primitives the code calls (`WriteInt`, `WriteString`, `WriteMapHeader`,
`WriteArrayHeader` and their readers); the byte-level encoding of each
primitive belongs to the external msgp library. -/
inductive Token where
  | int (i : Int)
  | str (s : String)
  | mapHeader (n : Nat)
  | arrayHeader (n : Nat)
deriving DecidableEq

/-- The `(key, slot)` entries written by `keys.EncodeMsgp`'s map loop. -/
def encPairs : List (String × Int) → List Token
  | [] => []
  | (k, v) :: rest => .str k :: .int v :: encPairs rest

/-- The `(Key, Count, Error)` triples written by `keys.EncodeMsgp`'s
element loop. -/
def encElts : List Element → List Token
  | [] => []
  | e :: rest => .str e.Key :: .int e.Count :: .int e.Error :: encElts rest

/-- `func (tk *keys) EncodeMsgp` (topk.go lines 75-103): map header with
`uint32(len(tk.m))`, the entries, array header with `uint32(len(tk.elts))`,
the triples. -/
def keys.EncodeMsgp (tk : keys) : List Token :=
  Token.mapHeader (tk.m.length % 4294967296) :: encPairs tk.m
    ++ Token.arrayHeader (tk.elts.length % 4294967296) :: encElts tk.elts

/-- Read `n` `(key, slot)` entries, in order (`keys.DecodeMsgp` map loop). -/
def decPairs : Nat → List Token → Option (List (String × Int) × List Token)
  | 0, ts => some ([], ts)
  | n + 1, Token.str k :: Token.int v :: ts =>
    (decPairs n ts).map (fun r => ((k, v) :: r.1, r.2))
  | _ + 1, _ => none

/-- Read `n` `(Key, Count, Error)` triples, in order. -/
def decElts : Nat → List Token → Option (List Element × List Token)
  | 0, ts => some ([], ts)
  | n + 1, Token.str k :: Token.int c :: Token.int er :: ts =>
    (decElts n ts).map (fun r => ({ Key := k, Count := c, Error := er } :: r.1, r.2))
  | _ + 1, _ => none

/-- `func (tk *keys) DecodeMsgp` (topk.go lines 105-147). -/
def keys.DecodeMsgp (ts : List Token) : Option (keys × List Token) :=
  match ts with
  | Token.mapHeader sz :: ts1 =>
    match decPairs sz ts1 with
    | some (m, ts2) =>
      match ts2 with
      | Token.arrayHeader sz2 :: ts3 =>
        match decElts sz2 ts3 with
        | some (es, ts4) => some ({ m := m, elts := es }, ts4)
        | none => none
      | _ => none
    | none => none
  | _ => none

/-- `func (p *partitions) EncodeMsgp`: the partitions one after another. -/
def encParts : List keys → List Token
  | [] => []
  | tk :: rest => tk.EncodeMsgp ++ encParts rest

/-- `func (p *partitions) DecodeMsgp`: reads exactly `count` partitions (the
source reads the fixed 6). -/
def decParts : Nat → List Token → Option (List keys × List Token)
  | 0, ts => some ([], ts)
  | n + 1, ts =>
    match keys.DecodeMsgp ts with
    | some (tk, ts1) =>
      match decParts n ts1 with
      | some (rest, ts2) => some (tk :: rest, ts2)
      | none => none
    | none => none

/-- The alphas written by `Stream.EncodeMsgp`'s loop. -/
def encInts : List Int → List Token
  | [] => []
  | a :: rest => .int a :: encInts rest

/-- Read `n` alphas, in order. -/
def decInts : Nat → List Token → Option (List Int × List Token)
  | 0, ts => some ([], ts)
  | n + 1, Token.int a :: ts =>
    (decInts n ts).map (fun r => (a :: r.1, r.2))
  | _ + 1, _ => none

/-- `func (s *Stream) EncodeMsgp` (topk.go lines 382-398): `n`, array header
with `uint32(len(alphas))`, the alphas in index order, then the partitions. -/
def Stream.EncodeMsgp (s : Stream) : List Token :=
  Token.int (Int.ofNat s.n)
    :: Token.arrayHeader (s.alphas.length % 4294967296)
    :: encInts s.alphas ++ encParts s.p

/-- `func (s *Stream) DecodeMsgp` (topk.go lines 401-423): `n`, the alphas,
then exactly `nPartitions` partitions. -/
def Stream.DecodeMsgp (ts : List Token) : Option (Stream × List Token) :=
  match ts with
  | Token.int ni :: Token.arrayHeader sz :: ts1 =>
    match decInts sz ts1 with
    | some (al, ts2) =>
      match decParts nPartitions ts2 with
      | some (ps, ts3) => some ({ n := ni.toNat, p := ps, alphas := al }, ts3)
      | none => none
    | none => none
  | _ => none

/-! ### List helper lemmas -/

/-- `getD` of `set` at a different index is unchanged. -/
theorem set_getD_of_ne {α : Type} (l : List α) {i j : Nat} (h : i ≠ j) (v d : α) :
    (l.set i v).getD j d = l.getD j d := by
  by_cases hj : j < l.length
  · rw [List.getD_eq_getElem _ d (by simpa using hj), List.getD_eq_getElem _ d hj]
    exact List.getElem_set_ne h _
  · rw [List.getD_eq_default _ d (by simpa using not_lt.mp hj),
      List.getD_eq_default _ d (not_lt.mp hj)]

/-- `getD` of `set` at the written (in-range) index returns the new value. -/
theorem set_getD_self {α : Type} (l : List α) {i : Nat} (h : i < l.length) (v d : α) :
    (l.set i v).getD i d = v := by
  rw [List.getD_eq_getElem _ d (by simpa using h)]
  simp

/-- An element read with `getD` is a member of the list or the default. -/
theorem getD_mem_or {α : Type} (l : List α) (i : Nat) (d : α) :
    l.getD i d ∈ l ∨ l.getD i d = d := by
  by_cases h : i < l.length
  · rw [List.getD_eq_getElem l d h]
    exact Or.inl (List.getElem_mem h)
  · rw [List.getD_eq_default l d (by omega)]
    exact Or.inr rfl

/-- `getD` of a replicated list. -/
theorem getD_replicate {α : Type} (a d : α) (k i : Nat) :
    (List.replicate k a).getD i d = if i < k then a else d := by
  induction k generalizing i with
  | zero => simp
  | succ k' ih =>
    cases i with
    | zero => simp [List.replicate_succ]
    | succ i' =>
      rw [List.replicate_succ a k', List.getD_cons_succ, ih i']
      simp only [Nat.succ_lt_succ_iff]

/-- Pairwise addition of non-negative lists is non-negative. -/
theorem zipWith_add_nonneg {a b : List Int} (ha : ∀ x ∈ a, 0 ≤ x)
    (hb : ∀ y ∈ b, 0 ≤ y) :
    ∀ z ∈ List.zipWith (fun x y => x + y) a b, 0 ≤ z := by
  induction a generalizing b with
  | nil => simp
  | cons x rest ih =>
    cases b with
    | nil => simp
    | cons y brest =>
      intro z hz
      rcases List.mem_cons.mp hz with h | h
      · subst h
        exact add_nonneg (ha x (by simp)) (hb y (by simp))
      · exact ih (fun u hu => ha u (by simp [hu])) (fun u hu => hb u (by simp [hu])) z h

/-! ### Heap-operation preservation lemmas -/

/-- Elementwise bound: the implicit invariant `0 ≤ Error ≤ Count`. -/
def eltOK (e : Element) : Prop := 0 ≤ e.Error ∧ e.Error ≤ e.Count

theorem eltOK_default : eltOK default := by constructor <;> simp [eltOK, default]

/-- `keys.Swap` preserves any elementwise property that the zero element has. -/
theorem swap_elts_forall {P : Element → Prop} (hd : P default) {tk : keys}
    (h : ∀ e ∈ tk.elts, P e) (i j : Nat) : ∀ e ∈ (tk.Swap i j).elts, P e := by
  intro e he
  have hmem : ∀ x : Element, x ∈ tk.elts ∨ x = default → P x := by
    rintro x (hx | rfl)
    · exact h x hx
    · exact hd
  simp only [keys.Swap] at he
  rcases List.mem_or_eq_of_mem_set he with he1 | rfl
  · rcases List.mem_or_eq_of_mem_set he1 with he2 | rfl
    · exact h e he2
    · exact hmem _ (getD_mem_or _ _ _)
  · exact hmem _ (getD_mem_or _ _ _)

theorem swap_elts_length (tk : keys) (i j : Nat) :
    (tk.Swap i j).elts.length = tk.elts.length := by
  simp [keys.Swap]

theorem heapUpFuel_forall {P : Element → Prop} (hd : P default) :
    ∀ (fuel : Nat) (tk : keys) (j : Nat), (∀ e ∈ tk.elts, P e) →
      ∀ e ∈ (heapUpFuel fuel tk j).elts, P e := by
  intro fuel
  induction fuel with
  | zero => intro tk j h; exact h
  | succ f ih =>
    intro tk j h
    rw [heapUpFuel]
    split
    · exact h
    · exact ih _ _ (swap_elts_forall hd h _ _)

theorem heapUpFuel_length :
    ∀ (fuel : Nat) (tk : keys) (j : Nat),
      (heapUpFuel fuel tk j).elts.length = tk.elts.length := by
  intro fuel
  induction fuel with
  | zero => intro tk j; rfl
  | succ f ih =>
    intro tk j
    rw [heapUpFuel]
    split
    · rfl
    · rw [ih, swap_elts_length]

theorem heapDownFuel_forall {P : Element → Prop} (hd : P default) :
    ∀ (fuel : Nat) (tk : keys) (i n : Nat), (∀ e ∈ tk.elts, P e) →
      ∀ e ∈ (heapDownFuel fuel tk i n).1.elts, P e := by
  intro fuel
  induction fuel with
  | zero => intro tk i n h; exact h
  | succ f ih =>
    intro tk i n h
    rw [heapDownFuel]
    split
    · exact h
    · split <;>
      · split
        · exact h
        · exact ih _ _ _ (swap_elts_forall hd h _ _)

theorem heapDownFuel_length :
    ∀ (fuel : Nat) (tk : keys) (i n : Nat),
      (heapDownFuel fuel tk i n).1.elts.length = tk.elts.length := by
  intro fuel
  induction fuel with
  | zero => intro tk i n; rfl
  | succ f ih =>
    intro tk i n
    rw [heapDownFuel]
    split
    · rfl
    · split <;>
      · split
        · rfl
        · rw [ih, swap_elts_length]

theorem heapDown_fst (tk : keys) (i0 n : Nat) :
    (heapDown tk i0 n).1 = (heapDownFuel n tk i0 n).1 := rfl

theorem heapFix_forall {P : Element → Prop} (hd : P default) {tk : keys}
    (h : ∀ e ∈ tk.elts, P e) (i : Nat) : ∀ e ∈ (heapFix tk i).elts, P e := by
  unfold heapFix heapUp
  split
  · rw [heapDown_fst]
    exact heapDownFuel_forall hd _ _ _ _ h
  · rw [heapDown_fst]
    exact heapUpFuel_forall hd _ _ _ (heapDownFuel_forall hd _ _ _ _ h)

theorem heapFix_length (tk : keys) (i : Nat) :
    (heapFix tk i).elts.length = tk.elts.length := by
  unfold heapFix heapUp
  split
  · rw [heapDown_fst]
    exact heapDownFuel_length _ _ _ _
  · rw [heapDown_fst, heapUpFuel_length, heapDownFuel_length]

theorem heapPush_forall {P : Element → Prop} (hd : P default) {tk : keys}
    (h : ∀ e ∈ tk.elts, P e) {e : Element} (he : P e) :
    ∀ x ∈ (heapPush tk e).elts, P x := by
  unfold heapPush heapUp
  refine heapUpFuel_forall hd _ _ _ ?_
  intro x hx
  rcases List.mem_append.mp hx with hx1 | hx1
  · exact h x hx1
  · rw [List.mem_singleton.mp hx1]; exact he

theorem heapPush_length (tk : keys) (e : Element) :
    (heapPush tk e).elts.length = tk.elts.length + 1 := by
  unfold heapPush heapUp
  rw [heapUpFuel_length]
  simp

theorem foldl_heapPush_forall {P : Element → Prop} (hd : P default) :
    ∀ (l : List Element) (tk : keys), (∀ e ∈ tk.elts, P e) → (∀ e ∈ l, P e) →
      ∀ e ∈ (l.foldl heapPush tk).elts, P e := by
  intro l
  induction l with
  | nil => intro tk h _; exact h
  | cons a rest ih =>
    intro tk h hl
    exact ih _ (heapPush_forall hd h (hl a (by simp)))
      (fun u hu => hl u (by simp [hu]))

theorem foldl_heapPush_length :
    ∀ (l : List Element) (tk : keys),
      (l.foldl heapPush tk).elts.length = tk.elts.length + l.length := by
  intro l
  induction l with
  | nil => intro tk; rfl
  | cons a rest ih =>
    intro tk
    rw [List.foldl_cons, ih, heapPush_length, List.length_cons]
    omega

/-! ### Insert branch analysis -/

theorem eltOK_incCount {e : Element} (he : eltOK e) {count : Int} (hc : 0 ≤ count) :
    eltOK (incCount e count) := by
  obtain ⟨h1, h2⟩ := he
  exact ⟨h1, by simpa [incCount] using le_add_of_le_of_nonneg h2 hc⟩

theorem alphas_getD_nonneg {l : List Int} (h : ∀ a ∈ l, 0 ≤ a) (i : Nat) :
    0 ≤ l.getD i 0 := by
  rcases getD_mem_or l i 0 with hm | he
  · exact h _ hm
  · rw [he]

theorem elts_getD_ok {tk : keys} (h : ∀ e ∈ tk.elts, eltOK e) (i : Nat) :
    eltOK (tk.elts.getD i default) := by
  rcases getD_mem_or tk.elts i default with hm | he
  · exact h _ hm
  · rw [he]; exact eltOK_default

theorem pOK_getD {s : Stream} (h : ∀ tk ∈ s.p, ∀ e ∈ tk.elts, eltOK e) (i : Nat) :
    ∀ e ∈ (s.p.getD i default).elts, eltOK e := by
  rcases getD_mem_or s.p i default with hm | he
  · exact h _ hm
  · rw [he]; intro e hme; simp [default] at hme

/-- `Insert` never changes the target count `n`. -/
theorem insert_n (hash : String → Nat) (s : Stream) (x : String) (count : Int) :
    ((Stream.Insert hash s x count).1).n = s.n := by
  simp only [Stream.Insert]
  split
  · rfl
  · split
    · rfl
    · split
      · rfl
      · rfl

/-- The three possible shapes of the error table after one `Insert`: unchanged
(tracked/admit branches), bumped at the inserted key's bucket (filter branch),
or overwritten at the evicted minimum's bucket (evict branch). -/
theorem insert_alphas_cases (hash : String → Nat) (s : Stream) (x : String) (count : Int) :
    ((Stream.Insert hash s x count).1).alphas = s.alphas
    ∨ ((Stream.Insert hash s x count).1).alphas
        = s.alphas.set (reduce (hash x) s.alphas.length)
            (s.alphas.getD (reduce (hash x) s.alphas.length) 0 + count)
    ∨ ((Stream.Insert hash s x count).1).alphas
        = s.alphas.set
            (reduce (hash ((s.p.getD (hash x % s.p.length) default).elts.getD 0 default).Key)
              s.alphas.length)
            ((s.p.getD (hash x % s.p.length) default).elts.getD 0 default).Count := by
  simp only [Stream.Insert]
  split
  · exact Or.inl rfl
  · split
    · exact Or.inl rfl
    · split
      · exact Or.inr (Or.inl rfl)
      · exact Or.inr (Or.inr rfl)

/-- `Insert` with a non-negative count preserves the elementwise and error
table invariants, and returns an element satisfying them. -/
theorem insert_inv (hash : String → Nat) (s : Stream) (x : String) (count : Int)
    (hc : 0 ≤ count) (hA : ∀ a ∈ s.alphas, 0 ≤ a)
    (hP : ∀ tk ∈ s.p, ∀ e ∈ tk.elts, eltOK e) :
    (∀ a ∈ ((Stream.Insert hash s x count).1).alphas, 0 ≤ a)
    ∧ (∀ tk ∈ ((Stream.Insert hash s x count).1).p, ∀ e ∈ tk.elts, eltOK e)
    ∧ eltOK (Stream.Insert hash s x count).2 := by
  have htk := pOK_getD hP (hash x % s.p.length)
  simp only [Stream.Insert]
  split
  · -- tracked
    rename_i idx heq
    have h1 : ∀ e ∈ (s.p.getD (hash x % s.p.length) default).elts.set idx.toNat
        (incCount ((s.p.getD (hash x % s.p.length) default).elts.getD idx.toNat default) count), eltOK e := by
      intro e he
      rcases List.mem_or_eq_of_mem_set he with hm | hev
      · exact htk _ hm
      · rw [hev]
        exact eltOK_incCount (elts_getD_ok htk _) hc
    refine ⟨hA, ?_, ?_⟩
    · intro tk htkm
      rcases List.mem_or_eq_of_mem_set htkm with hm | hev
      · exact hP _ hm
      · rw [hev]
        exact heapFix_forall eltOK_default h1 _
    · rcases getD_mem_or ((s.p.getD (hash x % s.p.length) default).elts.set idx.toNat
        (incCount ((s.p.getD (hash x % s.p.length) default).elts.getD idx.toNat default) count))
        idx.toNat default with hm | hev
      · exact h1 _ hm
      · rw [hev]; exact eltOK_default
  · split
    · -- admit
      have he : eltOK { Key := x, Count := count, Error := 0 } := ⟨le_refl 0, hc⟩
      refine ⟨hA, ?_, he⟩
      intro tk htkm
      rcases List.mem_or_eq_of_mem_set htkm with hm | hev
      · exact hP _ hm
      · rw [hev]
        exact heapPush_forall eltOK_default htk he
    · split
      · -- filter
        have ha : 0 ≤ s.alphas.getD (reduce (hash x) s.alphas.length) 0 :=
          alphas_getD_nonneg hA _
        refine ⟨?_, hP, ha, by simpa using hc⟩
        intro a ham
        rcases List.mem_or_eq_of_mem_set ham with hm | hev
        · exact hA _ hm
        · rw [hev]; exact add_nonneg ha hc
      · -- evict
        have hM := elts_getD_ok htk 0
        have hA1 : ∀ a ∈ s.alphas.set
            (reduce (hash ((s.p.getD (hash x % s.p.length) default).elts.getD 0 default).Key)
              s.alphas.length)
            ((s.p.getD (hash x % s.p.length) default).elts.getD 0 default).Count, 0 ≤ a := by
          intro a ham
          rcases List.mem_or_eq_of_mem_set ham with hm | hev
          · exact hA _ hm
          · rw [hev]; exact le_trans hM.1 hM.2
        have ha : 0 ≤ (s.alphas.set
            (reduce (hash ((s.p.getD (hash x % s.p.length) default).elts.getD 0 default).Key)
              s.alphas.length)
            ((s.p.getD (hash x % s.p.length) default).elts.getD 0 default).Count).getD
            (reduce (hash x) s.alphas.length) 0 := alphas_getD_nonneg hA1 _
        refine ⟨hA1, ?_, ha, le_add_of_nonneg_right hc⟩
        intro tk htkm
        rcases List.mem_or_eq_of_mem_set htkm with hm | hev
        · exact hP _ hm
        · rw [hev]
          refine heapFix_forall eltOK_default ?_ _
          intro e he
          rcases List.mem_or_eq_of_mem_set he with hm | hev2
          · exact htk _ hm
          · rw [hev2]
            exact ⟨ha, le_add_of_nonneg_right hc⟩

/-- `Insert` keeps every partition's length at or below `n`. -/
theorem insert_len (hash : String → Nat) (s : Stream) (x : String) (count : Int)
    (hlen : ∀ i, (s.p.getD i default).elts.length ≤ s.n) :
    ∀ i, ((((Stream.Insert hash s x count).1).p.getD i default).elts.length ≤ s.n) := by
  intro j
  simp only [Stream.Insert]
  split
  · -- tracked: length preserved
    by_cases hij : hash x % s.p.length = j
    · subst hij
      by_cases hin : hash x % s.p.length < s.p.length
      · rw [set_getD_self _ hin]
        rw [heapFix_length]
        simpa using hlen _
      · rw [List.set_eq_of_length_le (by omega)]
        exact hlen _
    · rw [set_getD_of_ne _ hij]
      exact hlen _
  · split
    · -- admit: length grows by one, bounded by the branch condition
      rename_i hcap
      by_cases hij : hash x % s.p.length = j
      · subst hij
        by_cases hin : hash x % s.p.length < s.p.length
        · rw [set_getD_self _ hin, heapPush_length]
          omega
        · rw [List.set_eq_of_length_le (by omega)]
          exact hlen _
      · rw [set_getD_of_ne _ hij]
        exact hlen _
    · split
      · -- filter: partitions untouched
        exact hlen _
      · -- evict: length preserved
        by_cases hij : hash x % s.p.length = j
        · subst hij
          by_cases hin : hash x % s.p.length < s.p.length
          · rw [set_getD_self _ hin, heapFix_length]
            simpa using hlen _
          · rw [List.set_eq_of_length_le (by omega)]
            exact hlen _
        · rw [set_getD_of_ne _ hij]
          exact hlen _

/-! ### Merge analysis -/

theorem mergedElts_ok (hash : String → Nat) (s other : Stream) (i : Nat)
    (hS : ∀ tk ∈ s.p, ∀ e ∈ tk.elts, eltOK e)
    (hO : ∀ tk ∈ other.p, ∀ e ∈ tk.elts, eltOK e)
    (hAO : ∀ a ∈ other.alphas, 0 ≤ a) :
    ∀ e ∈ mergedElts hash s other i, eltOK e := by
  intro e he
  simp only [mergedElts] at he
  rcases List.mem_filterMap.mp he with ⟨k, hk, heq⟩
  have htkS := pOK_getD hS i
  have htkO := pOK_getD hO i
  have hmin : 0 ≤ other.alphas.getD (reduce (hash k) s.alphas.length) 0 :=
    alphas_getD_nonneg hAO _
  rcases h1 : lookupA (s.p.getD i default).m k with _ | idx1 <;>
    rcases h2 : lookupA (other.p.getD i default).m k with _ | idx2 <;>
    rw [h1, h2] at heq
  · simp at heq
  · obtain ⟨hE1, hE2⟩ := elts_getD_ok htkO idx2.toNat
    rw [← Option.some_inj.mp heq]
    exact ⟨add_nonneg hE1 hmin, add_le_add_right hE2 _⟩
  · obtain ⟨hE1, hE2⟩ := elts_getD_ok htkS idx1.toNat
    rw [← Option.some_inj.mp heq]
    exact ⟨add_nonneg hE1 hmin, add_le_add_right hE2 _⟩
  · obtain ⟨hE1, hE2⟩ := elts_getD_ok htkS idx1.toNat
    obtain ⟨hF1, hF2⟩ := elts_getD_ok htkO idx2.toNat
    rw [← Option.some_inj.mp heq]
    exact ⟨add_nonneg hE1 hF1, add_le_add hE2 hF2⟩

theorem sortDesc_mem {l : List Element} {e : Element} (h : e ∈ sortDesc l) : e ∈ l :=
  (List.perm_insertionSort sortLE l).mem_iff.mp h

theorem mergePartition_ok (hash : String → Nat) (s other : Stream) (i : Nat)
    (hS : ∀ tk ∈ s.p, ∀ e ∈ tk.elts, eltOK e)
    (hO : ∀ tk ∈ other.p, ∀ e ∈ tk.elts, eltOK e)
    (hAO : ∀ a ∈ other.alphas, 0 ≤ a) :
    ∀ e ∈ (mergePartition hash s other i).elts, eltOK e := by
  unfold mergePartition
  refine foldl_heapPush_forall eltOK_default _ _ (by simp) ?_
  intro e he
  have hin : e ∈ sortDesc (mergedElts hash s other i) := by
    split at he
    · exact List.take_subset _ _ he
    · exact he
  exact mergedElts_ok hash s other i hS hO hAO e (sortDesc_mem hin)

theorem mergePartition_len (hash : String → Nat) (s other : Stream) (i : Nat) :
    (mergePartition hash s other i).elts.length ≤ s.n := by
  unfold mergePartition
  rw [foldl_heapPush_length]
  split
  · simpa using Nat.min_le_left _ _
  · rename_i hle
    simp only [List.length_nil, Nat.zero_add]
    omega

theorem mergeAlphas_nonneg {a b : List Int} (ha : ∀ x ∈ a, 0 ≤ x)
    (hb : ∀ y ∈ b, 0 ≤ y) : ∀ z ∈ mergeAlphas a b, 0 ≤ z := by
  intro z hz
  rcases List.mem_append.mp hz with h | h
  · exact zipWith_add_nonneg ha hb z h
  · exact ha z (List.drop_subset _ _ h)

theorem mergeStep_n (hash : String → Nat) (other acc : Stream) (i : Nat) :
    (mergeStep hash other acc i).n = acc.n := rfl

theorem foldl_mergeStep_n (hash : String → Nat) (other : Stream) :
    ∀ (l : List Nat) (acc : Stream),
      (l.foldl (mergeStep hash other) acc).n = acc.n := by
  intro l
  induction l with
  | nil => intro acc; rfl
  | cons a rest ih => intro acc; rw [List.foldl_cons, ih, mergeStep_n]

theorem foldl_mergeStep_inv (hash : String → Nat) (other : Stream)
    (hO : ∀ tk ∈ other.p, ∀ e ∈ tk.elts, eltOK e)
    (hAO : ∀ a ∈ other.alphas, 0 ≤ a) :
    ∀ (l : List Nat) (acc : Stream),
      (∀ a ∈ acc.alphas, 0 ≤ a) → (∀ tk ∈ acc.p, ∀ e ∈ tk.elts, eltOK e) →
      (∀ a ∈ (l.foldl (mergeStep hash other) acc).alphas, 0 ≤ a)
      ∧ (∀ tk ∈ (l.foldl (mergeStep hash other) acc).p, ∀ e ∈ tk.elts, eltOK e) := by
  intro l
  induction l with
  | nil => intro acc hA hP; exact ⟨hA, hP⟩
  | cons a rest ih =>
    intro acc hA hP
    rw [List.foldl_cons]
    refine ih _ (mergeAlphas_nonneg hA hAO) ?_
    intro tk htk
    rcases List.mem_or_eq_of_mem_set htk with hm | hev
    · exact hP _ hm
    · rw [hev]
      exact mergePartition_ok hash acc other a hP hO hAO

theorem foldl_mergeStep_len (hash : String → Nat) (other : Stream) :
    ∀ (l : List Nat) (acc : Stream),
      (∀ i, (acc.p.getD i default).elts.length ≤ acc.n) →
      ∀ i, ((l.foldl (mergeStep hash other) acc).p.getD i default).elts.length
        ≤ (l.foldl (mergeStep hash other) acc).n := by
  intro l
  induction l with
  | nil => intro acc h; exact h
  | cons a rest ih =>
    intro acc h
    rw [List.foldl_cons]
    refine ih _ ?_
    intro j
    rw [mergeStep_n]
    show (((mergeStep hash other acc a).p).getD j default).elts.length ≤ acc.n
    simp only [mergeStep]
    by_cases hij : a = j
    · subst hij
      by_cases hin : a < acc.p.length
      · rw [set_getD_self _ hin]
        exact mergePartition_len hash acc other a
      · rw [List.set_eq_of_length_le (by omega)]
        exact h _
    · rw [set_getD_of_ne _ hij]
      exact h _

/-- The derived `Inhabited keys` zero value has no elements. -/
theorem default_keys_elts : (default : keys).elts = [] := rfl

/-- Eliminating a successful merge: the sizes matched and the result is the
fold of the per-partition merge step. -/
theorem merge_ok_elim {hash : String → Nat} {s other t : Stream}
    (h : Stream.Merge hash s other = Except.ok t) :
    s.n = other.n ∧ t = (List.range s.p.length).foldl (mergeStep hash other) s := by
  unfold Stream.Merge at h
  split at h
  · cases h
  · rename_i hns
    exact ⟨not_not.mp hns, (Except.ok.inj h).symm⟩

/-! ### Reachable states -/

/-- Sketch states reachable through the public constructors: `New`, `Insert`
with a non-negative count, and a successful `Merge` of two reachable sketches. -/
inductive Reachable (hash : String → Nat) : Stream → Prop where
  | new (n : Nat) : Reachable hash (New n)
  | insert {s : Stream} (x : String) (count : Int) (hc : 0 ≤ count)
      (hs : Reachable hash s) : Reachable hash (Stream.Insert hash s x count).1
  | merge {s other t : Stream} (hs : Reachable hash s) (ho : Reachable hash other)
      (hm : Stream.Merge hash s other = Except.ok t) : Reachable hash t

/-- Every reachable state has a non-negative error table and elements
satisfying `0 ≤ Error ≤ Count`. -/
theorem reachable_inv {hash : String → Nat} {s : Stream} (h : Reachable hash s) :
    (∀ a ∈ s.alphas, 0 ≤ a) ∧ (∀ tk ∈ s.p, ∀ e ∈ tk.elts, eltOK e) := by
  induction h with
  | new n =>
    constructor
    · intro a ha
      rw [List.eq_of_mem_replicate ha]
    · intro tk htk e he
      rw [List.eq_of_mem_replicate htk] at he
      simp at he
  | insert x count hc hs ih =>
    obtain ⟨hA, hP⟩ := ih
    obtain ⟨h1, h2, _⟩ := insert_inv _ _ x count hc hA hP
    exact ⟨h1, h2⟩
  | merge hs ho hm ihs iho =>
    obtain ⟨hns, ht⟩ := merge_ok_elim hm
    rw [ht]
    exact foldl_mergeStep_inv _ _ iho.2 iho.1 _ _ ihs.1 ihs.2

/-- Every reachable state keeps every partition at or below `n` elements. -/
theorem reachable_len {hash : String → Nat} {s : Stream} (h : Reachable hash s) :
    ∀ i, (s.p.getD i default).elts.length ≤ s.n := by
  induction h with
  | new n =>
    intro i
    simp only [New, getD_replicate]
    split
    · simp
    · rw [default_keys_elts]
      simp
  | insert x count hc hs ih =>
    intro i
    rw [insert_n]
    exact insert_len _ _ _ _ ih i
  | merge hs ho hm ihs iho =>
    obtain ⟨hns, ht⟩ := merge_ok_elim hm
    rw [ht]
    exact foldl_mergeStep_len _ _ _ _ ihs

/-! ### Ordering facts for Keys -/

theorem sortLE_iff (a b : Element) :
    sortLE a b ↔ b.Count < a.Count ∨ (a.Count = b.Count ∧ a.Key ≤ b.Key) := by
  unfold sortLE eltsLess
  constructor
  · intro h
    push_neg at h
    obtain ⟨h1, h2⟩ := h
    rcases lt_or_eq_of_le h1 with hlt | heq
    · exact Or.inl hlt
    · exact Or.inr ⟨heq.symm, h2 heq⟩
  · rintro (hlt | ⟨heq, hk⟩) hcon
    · rcases hcon with h3 | ⟨h3, _⟩
      · exact absurd hlt (lt_asymm h3)
      · exact absurd hlt (by rw [h3]; exact lt_irrefl _)
    · rcases hcon with h3 | ⟨_, h4⟩
      · exact absurd h3 (by rw [heq]; exact lt_irrefl _)
      · exact absurd h4 (not_lt.mpr hk)

instance : IsTotal Element sortLE := by
  constructor
  intro a b
  rw [sortLE_iff, sortLE_iff]
  rcases lt_trichotomy a.Count b.Count with h | h | h
  · exact Or.inr (Or.inl h)
  · rcases le_total a.Key b.Key with hk | hk
    · exact Or.inl (Or.inr ⟨h, hk⟩)
    · exact Or.inr (Or.inr ⟨h.symm, hk⟩)
  · exact Or.inl (Or.inl h)

instance : IsTrans Element sortLE := by
  constructor
  intro a b c hab hbc
  rw [sortLE_iff] at hab hbc ⊢
  rcases hab with h1 | ⟨e1, k1⟩
  · rcases hbc with h2 | ⟨e2, _⟩
    · exact Or.inl (lt_trans h2 h1)
    · exact Or.inl (e2 ▸ h1)
  · rcases hbc with h2 | ⟨e2, k2⟩
    · exact Or.inl (e1 ▸ h2)
    · exact Or.inr ⟨e1.trans e2, le_trans k1 k2⟩

theorem sortDesc_sorted (l : List Element) : List.Sorted sortLE (sortDesc l) :=
  List.sorted_insertionSort sortLE l

/-! ### Codec round-trip lemmas -/

theorem decPairs_enc (m : List (String × Int)) (ts : List Token) :
    decPairs m.length (encPairs m ++ ts) = some (m, ts) := by
  induction m with
  | nil => rfl
  | cons kv rest ih =>
    obtain ⟨k, v⟩ := kv
    simp only [encPairs, List.length_cons, List.cons_append, decPairs, List.append_eq, ih,
      Option.map_some']

theorem decElts_enc (l : List Element) (ts : List Token) :
    decElts l.length (encElts l ++ ts) = some (l, ts) := by
  induction l with
  | nil => rfl
  | cons e rest ih =>
    simp only [encElts, List.length_cons, List.cons_append, decElts, List.append_eq, ih,
      Option.map_some']

theorem decInts_enc (l : List Int) (ts : List Token) :
    decInts l.length (encInts l ++ ts) = some (l, ts) := by
  induction l with
  | nil => rfl
  | cons a rest ih =>
    simp only [encInts, List.length_cons, List.cons_append, decInts, List.append_eq, ih,
      Option.map_some']

theorem decKeys_enc (tk : keys) (ts : List Token)
    (h1 : tk.m.length < 4294967296) (h2 : tk.elts.length < 4294967296) :
    keys.DecodeMsgp (tk.EncodeMsgp ++ ts) = some (tk, ts) := by
  unfold keys.EncodeMsgp keys.DecodeMsgp
  rw [Nat.mod_eq_of_lt h1, Nat.mod_eq_of_lt h2]
  simp only [List.cons_append, List.append_assoc]
  rw [decPairs_enc]
  simp only [List.cons_append]
  rw [decElts_enc]

theorem decParts_enc (ps : List keys) (ts : List Token)
    (h : ∀ tk ∈ ps, tk.m.length < 4294967296 ∧ tk.elts.length < 4294967296) :
    decParts ps.length (encParts ps ++ ts) = some (ps, ts) := by
  induction ps with
  | nil => rfl
  | cons tk rest ih =>
    obtain ⟨h1, h2⟩ := h tk (by simp)
    simp only [encParts, List.length_cons, List.append_assoc, decParts]
    rw [decKeys_enc tk _ h1 h2]
    simp only [ih (fun u hu => h u (by simp [hu]))]

/-! ### Estimate bound -/

theorem estimate_ok (hash : String → Nat) (s : Stream) (x : String)
    (hA : ∀ a ∈ s.alphas, 0 ≤ a)
    (hP : ∀ tk ∈ s.p, ∀ e ∈ tk.elts, eltOK e) :
    eltOK (Stream.Estimate hash s x) := by
  simp only [Stream.Estimate]
  split
  · exact elts_getD_ok (pOK_getD hP _) _
  · exact ⟨alphas_getD_nonneg hA _, le_refl _⟩

/-! ### Concrete instances used by the claim theorems -/

/-- A concrete instantiation of the opaque 64-bit hash collaborator, choosing
partitions and buckets (partition is `hash mod 6`; bucket for a size-6 error
table is `low32(hash) * 6 >> 32`): "A" to partition 0 / bucket 1, "m" to
partition 1 / bucket 0, "y" to partition 0 / bucket 0, "z" to partition 1 /
bucket 2. -/
def hash0 : String → Nat := fun x =>
  if x = "A" then 715827888
  else if x = "m" then 1
  else if x = "y" then 0
  else if x = "z" then 1431655771
  else 0

/-- The insertion stream for the bound-violation scenario. -/
def stream1 : List (String × Int) := [("A", 10), ("m", 1), ("y", 5), ("z", 7)]

/-- The sketch after the first three inserts of `stream1` (here
`alphas[0] = 5`, raised by the filter branch for "y"). -/
def s3 : Stream := insertSeq hash0 (New 1) [("A", 10), ("m", 1), ("y", 5)]

/-- The sketch after one insert, with partition 0 full (since `n = 1`). -/
def s1 : Stream := insertSeq hash0 (New 1) [("A", 10)]

/-- A sketch with a raised bucket floor (`alphas[0] = 5`), used as the merge
operand. -/
def otherSk : Stream := insertSeq hash0 (New 1) [("A", 10), ("y", 5)]

/-- A constant hash: all keys share partition 0 and bucket 0. -/
def hashC : String → Nat := fun _ => 0

/-- A constant hash with value `2^31`: low 32 bits `2^31`, high 32 bits 0. -/
def hash1 : String → Nat := fun _ => 2147483648

/-- A hand-built sketch state whose error table singles out bucket 6. -/
def s5 : Stream :=
  { n := 2
    p := List.replicate 6 { m := [], elts := [] }
    alphas := [0, 0, 0, 0, 0, 0, 9, 0, 0, 0, 0, 0] }

/-- Modelled from the spec's words: `bucket_index = high32(hash) * len(alphas)
>> 32`, computed from the upper 32 bits of the 64-bit hash. -/
def bucketIndexSpec (h L : Nat) : Nat :=
  ((h / 4294967296) % 4294967296) * L / 4294967296

/-! ### Claim theorems -/

/-- C1: the claimed upper bound `Estimate(x).Count ≥ exact_count(x)` fails on
the code.  With `New 1` and the non-negative stream `stream1`, the filter
branch raises `alphas[0]` to 5 on behalf of the untracked key "y", but the
later eviction of "m" (same bucket, different partition) overwrites
`alphas[0]` down to 1, and `Estimate("y").Count = 1 < 5 = exact_count("y")`.
(The lower-bound half `Count − Error ≤ exact_count` is not violated here.) -/
theorem c1_upper_bound_fails :
    stream1.all (fun q => decide (0 ≤ q.2)) = true
    ∧ exactCount stream1 "y" = 5
    ∧ (Stream.Estimate hash0 (insertSeq hash0 (New 1) stream1) "y").Count = 1
    ∧ (Stream.Estimate hash0 (insertSeq hash0 (New 1) stream1) "y").Count
        < exactCount stream1 "y" := by decide

/-- C2: a successful `Merge` adds `other.alphas` once per partition — six
times — not once, because the addition loop sits inside the partition loop:
merging `otherSk` (whose `alphas[0]` is 5) into a fresh `New 1` (whose
`alphas[0]` is 0) produces `alphas[0] = 30 = 6 * 5`, not 5. -/
theorem c2_alphas_added_per_partition :
    (New 1).alphas.getD 0 0 = 0
    ∧ otherSk.alphas.getD 0 0 = 5
    ∧ (Stream.Merge hash0 (New 1) otherSk).toOption.map (fun t => t.alphas.getD 0 0)
        = some 30 := by decide

/-- C3 counterexample: with `n = 2` and a hash sending both keys to partition
0, `Insert` admits a second element into one partition although
`ceil(n/P) = 1`; the state is reachable, so the claimed per-partition capacity
`ceil(n/P)` is false (the admission threshold in the code is `n`). -/
theorem c3_counterexample :
    Reachable hashC (insertSeq hashC (New 2) [("a", 1), ("b", 1)])
    ∧ ((insertSeq hashC (New 2) [("a", 1), ("b", 1)]).p.getD 0 default).elts.length = 2
    ∧ ¬ (((insertSeq hashC (New 2) [("a", 1), ("b", 1)]).p.getD 0 default).elts.length
          ≤ ((insertSeq hashC (New 2) [("a", 1), ("b", 1)]).n + nPartitions - 1)
              / nPartitions) := by
  refine ⟨?_, by decide, by decide⟩
  exact Reachable.insert "b" 1 (by decide)
    (Reachable.insert "a" 1 (by decide) (Reachable.new 2))

/-- C3 (amended): in every reachable sketch state each partition holds at most
`n` elements (not `ceil(n/P)`): `Insert` admits a new key without eviction
only while the target partition has fewer than `n` elements, and `Merge`
truncates each combined partition to `n`. -/
theorem c3_partition_capacity_n (hash : String → Nat) {s : Stream}
    (hs : Reachable hash s) (i : Nat) :
    (s.p.getD i default).elts.length ≤ s.n :=
  reachable_len hs i

/-- Witness for `c3_partition_capacity_n` at a concrete reachable state. -/
theorem c3_partition_capacity_n_witness :
    ((insertSeq hashC (New 2) [("a", 1), ("b", 1)]).p.getD 0 default).elts.length
      ≤ (insertSeq hashC (New 2) [("a", 1), ("b", 1)]).n :=
  c3_partition_capacity_n hashC
    (Reachable.insert "b" 1 (by decide)
      (Reachable.insert "a" 1 (by decide) (Reachable.new 2))) 0

/-- C4 counterexample: an `Insert` taking the eviction branch can lower an
error-table entry: from the reachable state `s3` (where `alphas[0] = 5`),
inserting "z" with count 7 evicts "m" and sets `alphas[0] = 1 < 5`. -/
theorem c4_counterexample :
    Reachable hash0 s3
    ∧ s3.alphas.getD 0 0 = 5
    ∧ ((Stream.Insert hash0 s3 "z" 7).1).alphas.getD 0 0 = 1
    ∧ ((Stream.Insert hash0 s3 "z" 7).1).alphas.getD 0 0 < s3.alphas.getD 0 0 := by
  refine ⟨?_, by decide, by decide, by decide⟩
  exact Reachable.insert "y" 5 (by decide)
    (Reachable.insert "m" 1 (by decide)
      (Reachable.insert "A" 10 (by decide) (Reachable.new 1)))

/-- C4 (amended): an `Insert` with `count ≥ 0` never decreases any error-table
entry, except that in the eviction branch the evicted minimum's bucket entry
is overwritten with the evicted minimum's `Count`, which may be lower. -/
theorem c4_alphas_monotone_except_eviction (hash : String → Nat) (s : Stream)
    (x : String) (count : Int) (hc : 0 ≤ count) (j : Nat) :
    s.alphas.getD j 0 ≤ ((Stream.Insert hash s x count).1).alphas.getD j 0
    ∨ (j = reduce (hash ((s.p.getD (hash x % s.p.length) default).elts.getD 0 default).Key)
          s.alphas.length
       ∧ ((Stream.Insert hash s x count).1).alphas.getD j 0
          = ((s.p.getD (hash x % s.p.length) default).elts.getD 0 default).Count) := by
  rcases insert_alphas_cases hash s x count with h | h | h
  · rw [h]
    exact Or.inl (le_refl _)
  · rw [h]
    by_cases hj : reduce (hash x) s.alphas.length = j
    · subst hj
      by_cases hin : reduce (hash x) s.alphas.length < s.alphas.length
      · rw [set_getD_self _ hin]
        exact Or.inl (le_add_of_nonneg_right hc)
      · rw [List.set_eq_of_length_le (by omega)]
        exact Or.inl (le_refl _)
    · rw [set_getD_of_ne _ hj]
      exact Or.inl (le_refl _)
  · rw [h]
    by_cases hj : reduce
        (hash ((s.p.getD (hash x % s.p.length) default).elts.getD 0 default).Key)
        s.alphas.length = j
    · by_cases hin : reduce
          (hash ((s.p.getD (hash x % s.p.length) default).elts.getD 0 default).Key)
          s.alphas.length < s.alphas.length
      · subst hj
        rw [set_getD_self _ hin]
        exact Or.inr ⟨rfl, rfl⟩
      · rw [List.set_eq_of_length_le (by omega)]
        exact Or.inl (le_refl _)
    · rw [set_getD_of_ne _ hj]
      exact Or.inl (le_refl _)

/-- Witness for `c4_alphas_monotone_except_eviction` at a concrete input. -/
theorem c4_alphas_monotone_except_eviction_witness :
    (0 : Int) ≤ 10
    ∧ ((New 1).alphas.getD 0 0 ≤ ((Stream.Insert hash0 (New 1) "A" 10).1).alphas.getD 0 0
       ∨ (0 = reduce
            (hash0 (((New 1).p.getD (hash0 "A" % (New 1).p.length) default).elts.getD 0
              default).Key) (New 1).alphas.length
          ∧ ((Stream.Insert hash0 (New 1) "A" 10).1).alphas.getD 0 0
             = (((New 1).p.getD (hash0 "A" % (New 1).p.length) default).elts.getD 0
                 default).Count)) :=
  ⟨by decide, c4_alphas_monotone_except_eviction hash0 (New 1) "A" 10 (by decide) 0⟩

/-- C5 counterexample: for a hash value with low 32 bits `2^31` and high 32
bits 0, the bucket index the code uses (`reduce`, which truncates to the low
32 bits) is 6 on a 12-entry table, while the spec's `high32(hash) * len >> 32`
formula gives 0; `Estimate` reads bucket 6 (value 9), not bucket 0 (value 0). -/
theorem c5_counterexample :
    reduce (hash1 "q") s5.alphas.length = 6
    ∧ bucketIndexSpec (hash1 "q") s5.alphas.length = 0
    ∧ (Stream.Estimate hash1 s5 "q").Count = 9
    ∧ s5.alphas.getD (bucketIndexSpec (hash1 "q") s5.alphas.length) 0 = 0 := by decide

/-- C5 (amended): the bucket index used to read the error table is computed
from the LOW 32 bits of the hash — `low32(hash) * len(alphas) >> 32` — and the
partition index is `hash mod P`: for an untracked key (not in the partition
selected by `hash mod P`), `Estimate` returns exactly that bucket's floor. -/
theorem c5_bucket_low32 (hash : String → Nat) (s : Stream) (x : String)
    (h : lookupA (s.p.getD (hash x % s.p.length) default).m x = none) :
    Stream.Estimate hash s x
      = { Key := x
          Count := s.alphas.getD ((hash x % 4294967296) * s.alphas.length / 4294967296) 0
          Error := s.alphas.getD ((hash x % 4294967296) * s.alphas.length / 4294967296) 0 } := by
  simp only [Stream.Estimate, reduce, h]

/-- Witness for `c5_bucket_low32` at a concrete input. -/
theorem c5_bucket_low32_witness :
    lookupA (s5.p.getD (hash1 "q" % s5.p.length) default).m "q" = none
    ∧ Stream.Estimate hash1 s5 "q"
        = { Key := "q"
            Count := s5.alphas.getD
              ((hash1 "q" % 4294967296) * s5.alphas.length / 4294967296) 0
            Error := s5.alphas.getD
              ((hash1 "q" % 4294967296) * s5.alphas.length / 4294967296) 0 } :=
  ⟨by decide, c5_bucket_low32 hash1 s5 "q" (by decide)⟩

/-- C6: the filter branch frame property.  When the key is untracked, the
target partition is full (`¬ len < n`), and `alphas[b] + count` is below the
partition minimum's `Count`, the partition array and key-to-slot map are left
unchanged, the only state change is `alphas[b] += count`, and the returned
element is `{x, old alphas[b] + count, old alphas[b]}`. -/
theorem c6_filter_frame (hash : String → Nat) (s : Stream) (x : String) (count : Int)
    (h1 : lookupA (s.p.getD (hash x % s.p.length) default).m x = none)
    (h2 : ¬ ((s.p.getD (hash x % s.p.length) default).elts.length < s.n))
    (h3 : s.alphas.getD (reduce (hash x) s.alphas.length) 0 + count
        < ((s.p.getD (hash x % s.p.length) default).elts.getD 0 default).Count) :
    Stream.Insert hash s x count
      = ({ s with alphas := s.alphas.set (reduce (hash x) s.alphas.length)
                     (s.alphas.getD (reduce (hash x) s.alphas.length) 0 + count) },
         { Key := x
           Count := s.alphas.getD (reduce (hash x) s.alphas.length) 0 + count
           Error := s.alphas.getD (reduce (hash x) s.alphas.length) 0 })
    ∧ ((Stream.Insert hash s x count).1).p = s.p
    ∧ ((Stream.Insert hash s x count).1).n = s.n
    ∧ (reduce (hash x) s.alphas.length < s.alphas.length →
        ((Stream.Insert hash s x count).1).alphas.getD (reduce (hash x) s.alphas.length) 0
          = s.alphas.getD (reduce (hash x) s.alphas.length) 0 + count) := by
  have hmain : Stream.Insert hash s x count
      = ({ s with alphas := s.alphas.set (reduce (hash x) s.alphas.length)
                     (s.alphas.getD (reduce (hash x) s.alphas.length) 0 + count) },
         { Key := x
           Count := s.alphas.getD (reduce (hash x) s.alphas.length) 0 + count
           Error := s.alphas.getD (reduce (hash x) s.alphas.length) 0 }) := by
    simp only [Stream.Insert, h1]
    rw [if_neg h2, if_pos h3]
  refine ⟨hmain, by rw [hmain], by rw [hmain], ?_⟩
  intro hin
  rw [hmain]
  exact set_getD_self _ hin _ _

/-- Witness for `c6_filter_frame` at a concrete input (the exact scenario of
spec section 8, item 7). -/
theorem c6_filter_frame_witness :
    lookupA (s1.p.getD (hash0 "y" % s1.p.length) default).m "y" = none
    ∧ ¬ ((s1.p.getD (hash0 "y" % s1.p.length) default).elts.length < s1.n)
    ∧ (s1.alphas.getD (reduce (hash0 "y") s1.alphas.length) 0 + 5
        < ((s1.p.getD (hash0 "y" % s1.p.length) default).elts.getD 0 default).Count)
    ∧ ((Stream.Insert hash0 s1 "y" 5).1).p = s1.p
    ∧ (Stream.Insert hash0 s1 "y" 5).2
        = { Key := "y"
            Count := s1.alphas.getD (reduce (hash0 "y") s1.alphas.length) 0 + 5
            Error := s1.alphas.getD (reduce (hash0 "y") s1.alphas.length) 0 } :=
  ⟨by decide, by decide, by decide,
    (c6_filter_frame hash0 s1 "y" 5 (by decide) (by decide) (by decide)).2.1,
    by rw [(c6_filter_frame hash0 s1 "y" 5 (by decide) (by decide) (by decide)).1]⟩

/-- C7: `Merge` on sketches with different `n` returns the size-mismatch error
— the Go code returns before touching any state, and the functional model
produces no new state on error and never writes `other` — while on equal `n`
it returns a successful result. -/
theorem c7_merge_size_precondition (hash : String → Nat) (s other : Stream) :
    (s.n ≠ other.n →
      Stream.Merge hash s other = Except.error (MergeError.sizeMismatch s.n other.n))
    ∧ (s.n = other.n → ∃ t, Stream.Merge hash s other = Except.ok t) := by
  constructor
  · intro h
    unfold Stream.Merge
    rw [if_pos h]
  · intro h
    refine ⟨(List.range s.p.length).foldl (mergeStep hash other) s, ?_⟩
    unfold Stream.Merge
    rw [if_neg (not_not.mpr h)]

/-- Witness for `c7_merge_size_precondition` at concrete inputs. -/
theorem c7_merge_size_precondition_witness :
    Stream.Merge hash0 (New 1) (New 2)
      = Except.error (MergeError.sizeMismatch (New 1).n (New 2).n)
    ∧ ∃ t, Stream.Merge hash0 (New 1) (New 1) = Except.ok t :=
  ⟨(c7_merge_size_precondition hash0 (New 1) (New 2)).1 (by decide),
   (c7_merge_size_precondition hash0 (New 1) (New 1)).2 rfl⟩

/-- C8: `Keys` returns a sequence sorted descending by `Count` with ties
broken ascending by `Key`, of length at most `n`; the model of `Keys` is a
pure function of the sketch state (the Go code only reads it). -/
theorem c8_keys_sorted_bounded (s : Stream) :
    List.Pairwise (fun a b : Element =>
        b.Count < a.Count ∨ (a.Count = b.Count ∧ a.Key ≤ b.Key)) (Stream.Keys s)
    ∧ (Stream.Keys s).length ≤ s.n := by
  have hs : List.Sorted sortLE
      (sortDesc (s.p.foldl (fun acc tk => acc ++ tk.elts) [])) := sortDesc_sorted _
  constructor
  · simp only [Stream.Keys]
    split
    · exact (List.Pairwise.sublist (List.take_sublist _ _) hs).imp
        (fun h => (sortLE_iff _ _).mp h)
    · exact hs.imp (fun h => (sortLE_iff _ _).mp h)
  · simp only [Stream.Keys]
    split
    · simpa using Nat.min_le_left _ _
    · omega

/-- C9: decoding an encoding yields a structurally identical sketch — the same
`n`, the same alphas in index order, and for every partition the same element
array in order together with an equal key-to-slot map — for any sketch with
the canonical 6 partitions whose sizes fit the `uint32` length headers. -/
theorem c9_encode_decode_roundtrip (s : Stream) (rest : List Token)
    (hp : s.p.length = nPartitions)
    (hA : s.alphas.length < 4294967296)
    (hme : ∀ tk ∈ s.p, tk.m.length < 4294967296 ∧ tk.elts.length < 4294967296) :
    Stream.DecodeMsgp (Stream.EncodeMsgp s ++ rest) = some (s, rest) := by
  unfold Stream.EncodeMsgp Stream.DecodeMsgp
  rw [Nat.mod_eq_of_lt hA]
  simp only [List.cons_append, List.append_assoc]
  rw [decInts_enc, ← hp]
  simp only [decParts_enc s.p _ hme]
  rfl

/-- Witness for `c9_encode_decode_roundtrip` at a concrete sketch. -/
theorem c9_encode_decode_roundtrip_witness :
    otherSk.p.length = nPartitions
    ∧ otherSk.alphas.length < 4294967296
    ∧ Stream.DecodeMsgp (Stream.EncodeMsgp otherSk ++ []) = some (otherSk, []) :=
  ⟨by decide, by decide,
    c9_encode_decode_roundtrip otherSk [] (by decide) (by decide) (by decide)⟩

/-- C10: in every reachable state (via `New`, `Insert` with `count ≥ 0`, and
successful `Merge`), every element stored in any partition, and every element
returned by `Insert` (with `count ≥ 0`) or `Estimate`, satisfies
`0 ≤ Error ≤ Count`. -/
theorem c10_error_bounds (hash : String → Nat) {s : Stream} (hs : Reachable hash s) :
    (∀ tk ∈ s.p, ∀ e ∈ tk.elts, 0 ≤ e.Error ∧ e.Error ≤ e.Count)
    ∧ (∀ (x : String) (count : Int), 0 ≤ count →
        0 ≤ ((Stream.Insert hash s x count).2).Error
        ∧ ((Stream.Insert hash s x count).2).Error
            ≤ ((Stream.Insert hash s x count).2).Count)
    ∧ (∀ x : String,
        0 ≤ (Stream.Estimate hash s x).Error
        ∧ (Stream.Estimate hash s x).Error ≤ (Stream.Estimate hash s x).Count) := by
  obtain ⟨hA, hP⟩ := reachable_inv hs
  refine ⟨hP, ?_, ?_⟩
  · intro x count hc
    exact (insert_inv hash s x count hc hA hP).2.2
  · intro x
    exact estimate_ok hash s x hA hP

/-- Witness for `c10_error_bounds` at a concrete reachable state. -/
theorem c10_error_bounds_witness :
    (0 ≤ ((Stream.Insert hash0 (New 1) "A" 10).2).Error
      ∧ ((Stream.Insert hash0 (New 1) "A" 10).2).Error
          ≤ ((Stream.Insert hash0 (New 1) "A" 10).2).Count)
    ∧ (0 ≤ (Stream.Estimate hash0 (New 1) "q").Error
      ∧ (Stream.Estimate hash0 (New 1) "q").Error
          ≤ (Stream.Estimate hash0 (New 1) "q").Count) :=
  ⟨(c10_error_bounds hash0 (Reachable.new 1)).2.1 "A" 10 (by decide),
   (c10_error_bounds hash0 (Reachable.new 1)).2.2 "q"⟩

end Topk
